import Mathlib

/-!
Verification of the signal-transform engine `src/models/conv_stft.py`
(class `STFT`) and of the loss compositor
`src/models/APC_SNR/apc_snr.py` (`stft_snr`, `APC_SNR_multi_filter`,
`APC_SNR`) against their natural-language specification.

The numeric code is embedded shallowly over exact rationals `ℚ`
(float32 tensors become `ℚ`-valued functions, elementwise tensor ops
become pointwise ops, reductions become `Finset` sums).  Python
exceptions (`NameError` from an unbound name, `ValueError` from
`scipy.signal.get_window`, `RuntimeError` from `torch` convolutions)
are modelled with `Except`.  `torch.log10` appears only in theorem
statements, as `Real.logb 10` on the exact rational argument.
-/

namespace ConvSTFT

/-- kinds of Python exception the embedded code paths can raise. -/
inductive PyErr where
  | nameError
  | valueError
  | runtimeError
  deriving DecidableEq, Repr

/-- epsilon added to the window-power normalization curve in
`STFT.inverse` (`conv_stft.py` line 124). -/
def invEps : ℚ := 1e-8

/-- default transform size of `STFT.__init__` (line 33):
`int(2 ** np.ceil(np.log2(nframe)))`, i.e. two raised to the ceiling
of the base-two logarithm of `nframe` (`Nat.clog 2`). -/
def defaultNfft (nframe : ℕ) : ℕ := 2 ^ Nat.clog 2 nframe

/-- window argument of `STFT.__init__` / `init_conv_stft_kernels`
(`win: Union[str, np.ndarray]`): the string literal `"hann sqrt"`
(line 53), any other window-family name (passed through to the
external `scipy.signal.get_window`, abstracted as an index), or an
explicit array (lines 61-62). -/
inductive Win where
  | hannSqrt
  | family (fam : ℕ)
  | arr (w : ℕ → ℚ)

/-- window-selection step at the top of `init_conv_stft_kernels`
(lines 51-62).  The external `scipy.signal.get_window` collaborator is
the parameter `gw`; `none` models its `ValueError` on an unrecognized
family.  The `"hann sqrt"` branch (lines 53-58) evaluates the bare
name `nframe`, which is bound in no enclosing scope (the attribute is
`self.nframe`), so Python raises `NameError` there, before the window
and hence before any Fourier kernel (lines 64-89) is built. -/
def init_conv_stft_window (gw : ℕ → ℕ → Option (ℕ → ℚ)) (nframe : ℕ)
    (win : Win) : Except PyErr (ℕ → ℚ) :=
  match win with
  | Win.hannSqrt => Except.error PyErr.nameError
  | Win.family f =>
      match gw f nframe with
      | some w => Except.ok w
      | none => Except.error PyErr.valueError
  | Win.arr w => Except.ok w

/-- configuration recorded by a successfully constructed `STFT`
(lines 25-42): sizes, the centering pad, and the selected window.  The
numeric kernel buffers built from it are carried by `STFTBuffers`. -/
structure STFTConfig where
  nframe : ℕ
  nhop : ℤ
  nfft : ℕ
  pad : ℕ
  window : ℕ → ℚ

/-- `STFT.__init__` (lines 17-43): stores `nframe` and `nhop`, sets
`pad = nframe // 2` when centered and `0` otherwise (line 29),
defaults `nfft` to `defaultNfft` when not given (lines 31-35), and
runs the window selection of `init_conv_stft_kernels` (line 37); the
kernel arithmetic itself (rfft basis, pseudo-inverse, windowing,
lines 64-89) never raises.  No validation of `nhop` (or of anything
else) is performed here. -/
def STFT_init (gw : ℕ → ℕ → Option (ℕ → ℚ)) (nframe : ℕ) (nhop : ℤ)
    (nfft : Option ℕ) (win : Win) (center : Bool) :
    Except PyErr STFTConfig :=
  (init_conv_stft_window gw nframe win).map fun w =>
    { nframe := nframe
      nhop := nhop
      nfft := match nfft with | none => defaultNfft nframe | some n => n
      pad := if center then nframe / 2 else 0
      window := w }

/-- test for the `ok` constructor of `Except`. -/
def isOkE {ε α : Type} : Except ε α → Bool
  | Except.ok _ => true
  | Except.error _ => false

/-- registered buffers of a constructed `STFT` (lines 40-43): the
windowed forward kernel `weight` (shape `(2*(nfft//2+1), nframe)`,
entry `weight c j` at output channel `c` and tap `j`), the windowed
pseudo-inverse kernel `inv_weight`, and the window itself.  The
windowing of line 83 (`kernel = kernel * window`) and the
pseudo-inverse identity asserted by the source comment on line 80
(`A dot pinv(A) = I`) are hypotheses of the round-trip theorem. -/
structure STFTBuffers where
  nframe : ℕ
  nhop : ℤ
  nfft : ℕ
  pad : ℕ
  weight : ℕ → ℕ → ℚ
  inv_weight : ℕ → ℕ → ℚ
  window : ℕ → ℚ

/-- number of output channels of the forward kernel:
`2 * (nfft // 2 + 1)` stacked real and imaginary rows (line 76). -/
def STFTBuffers.nch (st : STFTBuffers) : ℕ := 2 * (st.nfft / 2 + 1)

/-- `F.pad(x, (pad, pad))` (line 100) on a length-`L` signal: zeros on
either side of the samples of `x`. -/
def padded (pad L : ℕ) (x : ℕ → ℚ) : ℕ → ℚ := fun t =>
  if t < pad then 0 else if t < pad + L then x (t - pad) else 0

/-- number of frames `F.conv1d` emits with kernel size `nframe` and
stride `nhop` over a length-`Lp` input. -/
def numFrames (nframe nhop Lp : ℕ) : ℕ := (Lp - nframe) / nhop + 1

/-- `STFT.transform` (lines 91-110): pad, then slide the forward
kernel at stride `nhop`.  The result is the frame count together with
the raw conv1d output `spec f c` (frame `f`, channel `c`); channels
below `nfft//2+1` are the real rows, the rest the imaginary rows.
The split/stack/transpose of lines 104-110 is undone verbatim by
lines 116-117 of `inverse`, so the composed forward pass moves this
packed layout through unchanged.  A non-positive stride or an input
shorter than the kernel is a `RuntimeError` from `F.conv1d`. -/
def STFT_transform (st : STFTBuffers) (L : ℕ) (x : ℕ → ℚ) :
    Except PyErr (ℕ × (ℕ → ℕ → ℚ)) :=
  if st.nhop ≤ 0 then Except.error PyErr.runtimeError
  else if L + 2 * st.pad < st.nframe then Except.error PyErr.runtimeError
  else Except.ok (numFrames st.nframe st.nhop.toNat (L + 2 * st.pad),
    fun f c => ∑ j in Finset.range st.nframe,
      st.weight c j * padded st.pad L x (st.nhop.toNat * f + j))

/-- `F.conv_transpose1d` with `nc` input channels, `T` frames, kernel
size `k` and stride `hop`: output sample `t` accumulates
`inp c f * w c (t - hop*f)` over every frame whose kernel support
covers `t` (overlap-add). -/
def convT1d (nc T k hop : ℕ) (inp : ℕ → ℕ → ℚ) (w : ℕ → ℕ → ℚ)
    (t : ℕ) : ℚ :=
  ∑ f in Finset.range T, ∑ c in Finset.range nc,
    if hop * f ≤ t ∧ t - hop * f < k then inp c f * w c (t - hop * f)
    else 0

/-- overlap-add of the inverse kernel against the spectral frames
(line 119). -/
def olaOutputs (st : STFTBuffers) (T : ℕ) (spec : ℕ → ℕ → ℚ) :
    ℕ → ℚ :=
  convT1d st.nch T st.nframe st.nhop.toNat (fun c f => spec f c)
    st.inv_weight

/-- window-power normalization curve of lines 122-123:
`conv_transpose1d` of the squared window (repeated across frames)
against the identity `enframe` kernel `torch.eye(nframe)`. -/
def coff (st : STFTBuffers) (T : ℕ) : ℕ → ℚ :=
  convT1d st.nframe T st.nframe st.nhop.toNat
    (fun j _ => st.window j ^ 2) (fun j tau => if tau = j then 1 else 0)

/-- length of the `conv_transpose1d` output before trimming. -/
def invFullLen (nframe nhop T : ℕ) : ℕ := (T - 1) * nhop + nframe

/-- length of `STFT.inverse`'s output after stripping `pad` samples
from each end (line 126). -/
def invOutLen (st : STFTBuffers) (T : ℕ) : ℕ :=
  invFullLen st.nframe st.nhop.toNat T - 2 * st.pad

/-- `STFT.inverse` (lines 112-127): overlap-add the inverse kernel
over the frames, divide pointwise by `coff + 1e-8` (line 124), and
strip `pad` samples from each end (line 126; sample `t` of the result
is sample `t + pad` before the trim). -/
def STFT_inverse (st : STFTBuffers) (T : ℕ) (spec : ℕ → ℕ → ℚ) :
    ℕ → ℚ := fun t =>
  olaOutputs st T spec (t + st.pad) / (coff st T (t + st.pad) + invEps)

/-- `STFT.forward` (lines 129-132): `inverse(transform(x))`. -/
def STFT_forward (st : STFTBuffers) (L : ℕ) (x : ℕ → ℚ) :
    Except PyErr (ℕ → ℚ) :=
  (STFT_transform st L x).map fun p => STFT_inverse st p.1 p.2

/-- frame count produced by the forward pass on a length-`L` input. -/
def fwdFrames (st : STFTBuffers) (L : ℕ) : ℕ :=
  numFrames st.nframe st.nhop.toNat (L + 2 * st.pad)

/-- output length of the forward pass on a length-`L` input. -/
def fwdOutLen (st : STFTBuffers) (L : ℕ) : ℕ :=
  invOutLen st (fwdFrames st L)

end ConvSTFT

namespace APCSNR

/-- inner product of two flattened rows, `torch.sum(a * b, -1)`
(`apc_snr.py` lines 21-22, 25-26). -/
def dot {m : ℕ} (a b : Fin m → ℚ) : ℚ := ∑ i, a i * b i

/-- `s_target` of `stft_snr` (line 23):
`s1_s2_norm / (s2_s2_norm + eps) * s2`. -/
def s_target {m : ℕ} (s1 s2 : Fin m → ℚ) (eps : ℚ) : Fin m → ℚ :=
  fun i => dot s1 s2 / (dot s2 s2 + eps) * s2 i

/-- `e_nosie` of `stft_snr` (line 24, name as in the source):
`s1 - s_target`. -/
def e_nosie {m : ℕ} (s1 s2 : Fin m → ℚ) (eps : ℚ) : Fin m → ℚ :=
  fun i => s1 i - s_target s1 s2 eps i

/-- argument of `torch.log10` on line 27 for one batch row:
`target_norm / (noise_norm + eps) + eps`. -/
def snrLogArg {m : ℕ} (s1 s2 : Fin m → ℚ) (eps : ℚ) : ℚ :=
  dot (s_target s1 s2 eps) (s_target s1 s2 eps) /
    (dot (e_nosie s1 s2 eps) (e_nosie s1 s2 eps) + eps) + eps

/-- `stft_snr` (lines 18-28) as a real number: the negation of the
mean over the batch of `10 * log10(snrLogArg)`.  The `est` and
`clean` arguments are given after the `reshape(B, -1)` of
lines 19-20, as `B` flattened rows of length `m`. -/
noncomputable def stft_snr {B m : ℕ} (est clean : Fin B → Fin m → ℚ)
    (eps : ℚ) : ℝ :=
  -((∑ b, 10 * Real.logb 10 ((snrLogArg (est b) (clean b) eps : ℚ) : ℝ)) / B)

/-- Modelled from the spec: the projection
`target = (est·clean)/(clean·clean + ε) · clean`, with `ε = 1e-8`.
Written from the spec's words, to be compared with `stft_snr`'s
pieces. -/
def spec_target {m : ℕ} (est clean : Fin m → ℚ) : Fin m → ℚ := fun i =>
  (∑ j, est j * clean j) / ((∑ j, clean j * clean j) + 1e-8) * clean i

/-- Modelled from the spec: `error = est - target`. -/
def spec_error {m : ℕ} (est clean : Fin m → ℚ) : Fin m → ℚ := fun i =>
  est i - spec_target est clean i

/-- Modelled from the spec: the argument of
`snr = 10·log10(‖target‖² / (‖error‖² + ε) + ε)`, with `ε = 1e-8`. -/
def spec_snr_arg {m : ℕ} (est clean : Fin m → ℚ) : ℚ :=
  (∑ i, spec_target est clean i ^ 2) /
    ((∑ i, spec_error est clean i ^ 2) + 1e-8) + 1e-8

/-- Modelled from the spec: "the returned loss is the negative mean of
`snr` over the batch", with `snr = 10·log10(spec_snr_arg)`. -/
noncomputable def spec_snr_loss {B m : ℕ}
    (est clean : Fin B → Fin m → ℚ) : ℝ :=
  -((∑ b, 10 * Real.logb 10 ((spec_snr_arg (est b) (clean b) : ℚ) : ℝ)) / B)

/-- auxiliary hop list held by `APC_SNR_multi_filter.__init__`
(lines 36, 48-49): `self.multi_hop = hops`, then
`if model_hop in self.multi_hop: self.multi_hop.remove(model_hop)`.
Python `list.remove` deletes only the first occurrence
(`List.erase`).  The auxiliary engine list `self.stfts` then holds
one `ConvSTFT` per entry of this list, in order (lines 50-56). -/
def multi_filter_hops (model_hop : ℕ) (hops : List ℕ) : List ℕ :=
  if model_hop ∈ hops then hops.erase model_hop else hops

/-- `APC_SNR_multi_filter.forward` (lines 58-88), abstracted over the
per-resolution scalar contributions: `modelSnr` and `modelPmsqe` are
the model-resolution terms of lines 66-74, and `snrT h` / `pmsqeT h`
the terms the loop body (lines 76-84) adds for the auxiliary engine at
hop `h` (each evaluated through the external Acoustic Scaler and
Perceptual Scorer collaborators, whose interiors are out of scope).
The function returns the two accumulators each divided by
`len(self.stfts) + 1` (lines 86-88). -/
def multi_filter_forward (modelSnr modelPmsqe : ℚ) (snrT pmsqeT : ℕ → ℚ)
    (auxHops : List ℕ) : ℚ × ℚ :=
  ((auxHops.foldl (fun a h => a + snrT h) modelSnr) /
      (auxHops.length + 1),
   (auxHops.foldl (fun a h => a + pmsqeT h) modelPmsqe) /
      (auxHops.length + 1))

/-- frame count of the VAD framing in `APC_SNR.forward` (line 122):
`1 + (mix_vad.shape[1] - self.winlen) // self.hop`. -/
def vad_frame_num (winlen hop L : ℕ) : ℕ := 1 + (L - winlen) / hop

/-- frame-sum of the VAD indicator (lines 123-130): row `i` of
`frames` is `mix_vad[i*hop : i*hop + winlen]`, summed over the
frame. -/
def vad_frames (winlen hop : ℕ) (vad : ℕ → ℚ) (i : ℕ) : ℚ :=
  ∑ j in Finset.range winlen, vad (i * hop + j)

/-- `vad_label` (lines 132-135): `torch.where(vad_frames > 0,
ones_vec, zeros_vec)` with `zeros_vec = ones * 0.1`, so weight `1`
where the frame-sum is positive and `1/10` otherwise. -/
def vad_label (winlen hop : ℕ) (vad : ℕ → ℚ) (i : ℕ) : ℚ :=
  if 0 < vad_frames winlen hop vad i then 1 else 1 / 10

/-- `vad_mask` (lines 137-138): a zero vector over the spectral frames
whose first `frameNum` entries are overwritten with `vad_label`. -/
def vad_mask (winlen hop frameNum : ℕ) (vad : ℕ → ℚ) (t : ℕ) : ℚ :=
  if t < frameNum then vad_label winlen hop vad t else 0

/-- concrete VAD indicator used in evaluations: active on the first
two samples, silent afterwards. -/
def vadEx : ℕ → ℚ := fun t => if t < 2 then 1 else 0

end APCSNR

namespace ConvSTFT

/-- concrete buffer instance at the repository's own configuration
`nframe=512, nhop=128, nfft=512` with centering; the kernel values are
immaterial to the shape checks performed by `STFT_transform`. -/
def stBig : STFTBuffers :=
  ⟨512, 128, 512, 256, fun _ _ => 0, fun _ _ => 0, fun _ => 0⟩

/-- unwindowed forward kernel for `nframe = 2, nfft = 2`: the
one-sided rfft basis of `np.eye(2)` restricted to two taps gives real
rows `[1,1]` and `[1,-1]` and zero imaginary rows (4 channels). -/
def exK : ℕ → ℕ → ℚ := fun c j =>
  if c = 0 then 1 else if c = 1 then (if j = 0 then 1 else -1) else 0

/-- Moore-Penrose pseudo-inverse of `exK` (exact for this size):
rows `[1/2, 1/2, 0, 0]` and `[1/2, -1/2, 0, 0]`. -/
def exP : ℕ → ℕ → ℚ := fun j c =>
  if c = 0 then 1 / 2
  else if c = 1 then (if j = 0 then 1 / 2 else -(1 / 2)) else 0

/-- sqrt-Hann window of length 2 with `fftbins=True`:
`sqrt([0, 1]) = [0, 1]`, the matched sqrt-family analysis/synthesis
window. -/
def exWin : ℕ → ℚ := fun j => if j = 1 then 1 else 0

/-- engine buffers at `nframe=2, nhop=1, nfft=2`, centered (`pad=1`),
with the matched sqrt-Hann window applied to both the forward and the
pseudo-inverse kernel, exactly as lines 83 and 37-38 build them. -/
def exSt : STFTBuffers :=
  ⟨2, 1, 2, 1, fun c j => exK c j * exWin j,
    fun c j => exP j c * exWin j, exWin⟩

/-- constant test signal. -/
def exX : ℕ → ℚ := fun _ => 1

end ConvSTFT

namespace ConvSTFT

/-- folding addition of per-element terms over a list from an initial
accumulator equals the initial value plus the sum of the terms. -/
lemma list_foldl_add (f : ℕ → ℚ) (l : List ℕ) (a : ℚ) :
    l.foldl (fun s h => s + f h) a = a + (l.map f).sum := by
  induction l generalizing a with
  | nil => simp
  | cons x xs ih => simp [List.foldl_cons, ih, add_assoc]

/-- a rational whose value exceeds `10^8` reads as more than `80`
decibels under `10 * log10`. -/
lemma dB_gt_80_of_arg (q : ℚ) (h : (1e8 : ℚ) < q) :
    (80 : ℝ) < 10 * Real.logb 10 ((q : ℚ) : ℝ) := by
  have hq : ((1e8 : ℚ) : ℝ) < (q : ℝ) := by exact_mod_cast h
  have h0 : (0 : ℝ) < ((1e8 : ℚ) : ℝ) := by norm_num
  have hlt : Real.logb 10 ((1e8 : ℚ) : ℝ) < Real.logb 10 (q : ℝ) :=
    Real.logb_lt_logb (by norm_num) h0 hq
  have h8 : Real.logb 10 ((1e8 : ℚ) : ℝ) = 8 := by
    have he : ((1e8 : ℚ) : ℝ) = (10 : ℝ) ^ (8 : ℕ) := by norm_num
    rw [he, Real.logb_pow, Real.logb_self_eq_one (by norm_num)]
    norm_num
  rw [h8] at hlt
  linarith

/-- C10: with the window name `"hann sqrt"`, `STFT.__init__` raises
(`NameError`, from the unbound name `nframe` on line 55 of
`conv_stft.py`) for every `nframe`, `nhop`, `nfft` and centering mode,
before any kernel is built, so the derived sqrt-family window can
never be produced by this class. -/
theorem hann_sqrt_init_raises (gw : ℕ → ℕ → Option (ℕ → ℚ)) (nframe : ℕ)
    (nhop : ℤ) (nfft : Option ℕ) (center : Bool) :
    STFT_init gw nframe nhop nfft Win.hannSqrt center
      = Except.error PyErr.nameError := rfl

/-- C8: for `frame_length ≥ 1` the defaulted transform size
`int(2 ** np.ceil(np.log2(nframe)))` is the least power of two that is
at least `nframe`; in particular a power-of-two `nframe` yields
itself. -/
theorem defaultNfft_least_pow_two (nframe : ℕ) (_h1 : 1 ≤ nframe) :
    nframe ≤ defaultNfft nframe
    ∧ (∃ k, defaultNfft nframe = 2 ^ k)
    ∧ (∀ m, nframe ≤ 2 ^ m → defaultNfft nframe ≤ 2 ^ m)
    ∧ (∀ k, nframe = 2 ^ k → defaultNfft nframe = nframe) := by
  refine ⟨Nat.le_pow_clog (by norm_num) nframe, ⟨_, rfl⟩, ?_, ?_⟩
  · intro m hm
    exact Nat.pow_le_pow_right (by norm_num)
      ((Nat.le_pow_iff_clog_le (by norm_num)).mp hm)
  · intro k hk
    subst hk
    unfold defaultNfft
    rw [Nat.clog_pow 2 k (by norm_num)]

/-- witness for C8 at `nframe = 5` (`defaultNfft 5 = 8`). -/
theorem defaultNfft_least_pow_two_witness :
    1 ≤ 5 ∧ 5 ≤ defaultNfft 5 :=
  ⟨by norm_num, (defaultNfft_least_pow_two 5 (by norm_num)).1⟩

/-- C5 counterexample: constructing the engine with `hop_length = 0`
succeeds (no `ConfigError` is raised at construction), and with
centering enabled `transform` succeeds on a one-sample input, which is
shorter than the 512-sample frame (no `ShapeError`). -/
theorem stft_no_validation_cex :
    isOkE (STFT_init (fun _ _ => none) 512 0 none (Win.arr fun _ => 0) true)
        = true
    ∧ isOkE (STFT_transform stBig 1 fun _ => 0) = true := by
  exact ⟨rfl, rfl⟩

/-- C5 amended: construction validates nothing (it succeeds for every
`hop_length`, including `hop_length ≤ 0`, when the window argument is
well formed, e.g. an array); failures surface only when `transform`
is applied, which errors exactly when the stride is not positive or
the padded input is shorter than one frame — so with centering an
input shorter than one frame still transforms successfully, and the
errors are `RuntimeError`s from `F.conv1d`, not `ShapeError` or
`ConfigError`. -/
theorem stft_init_no_hop_check (gw : ℕ → ℕ → Option (ℕ → ℚ)) (nframe : ℕ)
    (nhop : ℤ) (nfft : Option ℕ) (w : ℕ → ℚ) (center : Bool)
    (st : STFTBuffers) (L : ℕ) (x : ℕ → ℚ) :
    isOkE (STFT_init gw nframe nhop nfft (Win.arr w) center) = true
    ∧ (isOkE (STFT_transform st L x) = true
        ↔ (0 < st.nhop ∧ st.nframe ≤ L + 2 * st.pad)) := by
  constructor
  · rfl
  · unfold STFT_transform
    rcases le_or_lt st.nhop 0 with h1 | h1
    · rw [if_pos h1]
      simp only [isOkE, Bool.false_eq_true, false_iff, not_and]
      intro hc
      omega
    · rw [if_neg (not_le.mpr h1)]
      rcases lt_or_le (L + 2 * st.pad) st.nframe with h2 | h2
      · rw [if_pos h2]
        simp only [isOkE, Bool.false_eq_true, false_iff, not_and]
        intro _
        omega
      · rw [if_neg (not_lt.mpr h2)]
        simp [isOkE, h1, h2]

end ConvSTFT

namespace APCSNR

/-- C3 counterexample: with `model_hop = 128` and `hops = [128, 128]`,
`__init__` removes only the first occurrence, so the auxiliary engine
list still contains an engine at the model hop — `model_hop` is
counted twice in the resolution set. -/
theorem multi_hop_double_count_cex :
    128 ∈ multi_filter_hops 128 [128, 128] := by decide

/-- C3 amended: `__init__` removes only the FIRST occurrence of
`model_hop` from `hops` (Python `list.remove`); every further
occurrence of `model_hop`, and every duplicate among other hop sizes,
remains and is counted once per occurrence in the auxiliary engine
list.  Collapsing to the model engine therefore happens only when
`model_hop` occurs at most once in `hops`. -/
theorem multi_hop_erase_first_only (model_hop : ℕ) (hops : List ℕ)
    (h : ℕ) :
    (multi_filter_hops model_hop hops).count h
      = hops.count h - if model_hop = h then 1 else 0 := by
  unfold multi_filter_hops
  by_cases hm : model_hop ∈ hops
  · rw [if_pos hm]
    have hce := List.count_erase h model_hop hops
    simpa [beq_iff_eq] using hce
  · rw [if_neg hm]
    by_cases he : model_hop = h
    · subst he
      rw [List.count_eq_zero_of_not_mem hm]
      simp
    · simp [he]

/-- C7: `APC_SNR_multi_filter.forward` returns each accumulator
divided by the total number of resolutions (model plus auxiliaries),
an unweighted arithmetic mean, and with an empty auxiliary list the
returned pair is exactly the model-only pair (division by one). -/
theorem multi_filter_forward_mean (modelSnr modelPmsqe : ℚ)
    (snrT pmsqeT : ℕ → ℚ) (auxHops : List ℕ) :
    multi_filter_forward modelSnr modelPmsqe snrT pmsqeT auxHops
      = ((modelSnr + (auxHops.map snrT).sum) / (auxHops.length + 1),
         (modelPmsqe + (auxHops.map pmsqeT).sum) / (auxHops.length + 1))
    ∧ multi_filter_forward modelSnr modelPmsqe snrT pmsqeT []
      = (modelSnr, modelPmsqe) := by
  constructor
  · unfold multi_filter_forward
    rw [ConvSTFT.list_foldl_add, ConvSTFT.list_foldl_add]
  · unfold multi_filter_forward
    simp

/-- the inner product is additive under negation of the left factor. -/
lemma dot_neg_left {m : ℕ} (x y : Fin m → ℚ) :
    dot (fun i => -x i) y = -dot x y := by
  unfold dot
  rw [← Finset.sum_neg_distrib]
  apply Finset.sum_congr rfl
  intro i _
  ring

/-- inner product of two uniformly scaled vectors. -/
lemma dot_const_mul {m : ℕ} (c d : ℚ) (x y : Fin m → ℚ) :
    dot (fun i => c * x i) (fun i => d * y i) = c * d * dot x y := by
  unfold dot
  rw [Finset.mul_sum]
  apply Finset.sum_congr rfl
  intro i _
  ring

/-- negating the estimate negates `s_target` (the projection
coefficient flips sign with the inner product). -/
lemma s_target_neg {m : ℕ} (x y : Fin m → ℚ) (eps : ℚ) :
    ∀ i, s_target (fun i => -x i) y eps i = -(s_target x y eps i) := by
  intro i
  unfold s_target
  rw [dot_neg_left]
  ring

/-- negating the estimate negates `e_nosie`. -/
lemma e_nosie_neg {m : ℕ} (x y : Fin m → ℚ) (eps : ℚ) :
    ∀ i, e_nosie (fun i => -x i) y eps i = -(e_nosie x y eps i) := by
  intro i
  unfold e_nosie
  rw [s_target_neg]
  ring

/-- the log-argument of `stft_snr` is invariant under sign flip of the
estimate: target and error both flip sign, so their squared norms are
unchanged. -/
lemma snrLogArg_neg {m : ℕ} (x y : Fin m → ℚ) (eps : ℚ) :
    snrLogArg (fun i => -x i) y eps = snrLogArg x y eps := by
  have h1 : dot (s_target (fun i => -x i) y eps)
        (s_target (fun i => -x i) y eps)
      = dot (s_target x y eps) (s_target x y eps) := by
    unfold dot
    apply Finset.sum_congr rfl
    intro i _
    rw [s_target_neg]
    ring
  have h2 : dot (e_nosie (fun i => -x i) y eps)
        (e_nosie (fun i => -x i) y eps)
      = dot (e_nosie x y eps) (e_nosie x y eps) := by
    unfold dot
    apply Finset.sum_congr rfl
    intro i _
    rw [e_nosie_neg]
    ring
  unfold snrLogArg
  rw [h1, h2]

/-- on identical inputs with squared norm at least `2`, the
log-argument of `stft_snr` exceeds `10^8` (the quantity whose base-ten
log, times ten, is the reported SNR in dB). -/
lemma snrLogArg_self_gt {m : ℕ} (x : Fin m → ℚ) (h2 : 2 ≤ dot x x) :
    (1e8 : ℚ) < snrLogArg x x 1e-8 := by
  have hn0 : (0 : ℚ) < dot x x := lt_of_lt_of_le (by norm_num) h2
  have hq : (0 : ℚ) < dot x x + 1e-8 := by linarith
  have hst : s_target x x 1e-8
      = fun i => (dot x x / (dot x x + 1e-8)) * x i := rfl
  have hen : e_nosie x x 1e-8
      = fun i => (1e-8 / (dot x x + 1e-8)) * x i := by
    funext i
    show x i - dot x x / (dot x x + 1e-8) * x i = _
    field_simp
    ring
  have hT : dot (s_target x x 1e-8) (s_target x x 1e-8)
      = (dot x x / (dot x x + 1e-8)) ^ 2 * dot x x := by
    rw [hst, dot_const_mul]
    ring
  have hE : dot (e_nosie x x 1e-8) (e_nosie x x 1e-8)
      = (1e-8 / (dot x x + 1e-8)) ^ 2 * dot x x := by
    rw [hen, dot_const_mul]
    ring
  unfold snrLogArg
  rw [hT, hE]
  have hDpos : (0 : ℚ)
      < (1e-8) ^ 2 * dot x x + 1e-8 * (dot x x + 1e-8) ^ 2 := by
    have hs := sq_nonneg (dot x x + 1e-8)
    nlinarith
  have key : (dot x x / (dot x x + 1e-8)) ^ 2 * dot x x /
        ((1e-8 / (dot x x + 1e-8)) ^ 2 * dot x x + 1e-8)
      = (dot x x) ^ 3 /
        ((1e-8) ^ 2 * dot x x + 1e-8 * (dot x x + 1e-8) ^ 2) := by
    have hq' : dot x x + 1e-8 ≠ 0 := ne_of_gt hq
    have hden : (1e-8 / (dot x x + 1e-8)) ^ 2 * dot x x + 1e-8 ≠ 0 := by
      have hs := sq_nonneg (1e-8 / (dot x x + 1e-8))
      nlinarith
    field_simp
    ring
  rw [key]
  have hmain : (1e8 : ℚ)
      < (dot x x) ^ 3 /
        ((1e-8) ^ 2 * dot x x + 1e-8 * (dot x x + 1e-8) ^ 2) := by
    rw [lt_div_iff₀ hDpos]
    nlinarith [h2, hn0, sq_nonneg (dot x x)]
  linarith [hmain]

/-- the log-argument of `stft_snr` scales as `a²·T/(a²·E)` when the
estimate is scaled by `a` and the epsilon floors are zero, so it is
exactly invariant there. -/
lemma snrLogArg_smul_eps_zero {m : ℕ} (a : ℚ) (s1 s2 : Fin m → ℚ)
    (ha : a ≠ 0) :
    snrLogArg (fun i => a * s1 i) s2 0 = snrLogArg s1 s2 0 := by
  have hd : dot (fun i => a * s1 i) s2 = a * dot s1 s2 := by
    unfold dot
    rw [Finset.mul_sum]
    apply Finset.sum_congr rfl
    intro i _
    ring
  have hst : ∀ i, s_target (fun i => a * s1 i) s2 0 i
      = a * s_target s1 s2 0 i := by
    intro i
    unfold s_target
    rw [hd]
    ring
  have hen : ∀ i, e_nosie (fun i => a * s1 i) s2 0 i
      = a * e_nosie s1 s2 0 i := by
    intro i
    unfold e_nosie
    rw [hst i]
    ring
  have hT : dot (s_target (fun i => a * s1 i) s2 0)
        (s_target (fun i => a * s1 i) s2 0)
      = a ^ 2 * dot (s_target s1 s2 0) (s_target s1 s2 0) := by
    unfold dot
    rw [Finset.mul_sum]
    apply Finset.sum_congr rfl
    intro i _
    rw [hst i]
    ring
  have hE : dot (e_nosie (fun i => a * s1 i) s2 0)
        (e_nosie (fun i => a * s1 i) s2 0)
      = a ^ 2 * dot (e_nosie s1 s2 0) (e_nosie s1 s2 0) := by
    unfold dot
    rw [Finset.mul_sum]
    apply Finset.sum_congr rfl
    intro i _
    rw [hen i]
    ring
  unfold snrLogArg
  rw [hT, hE]
  simp only [add_zero]
  exact mul_div_mul_left _ _ (pow_ne_zero 2 ha)

/-- C2 corrected: on identical inputs with `‖x‖² ≥ 2` the SNR reading
exceeds 80 dB, and the log-argument for `(−x, x)` EQUALS the one for
`(x, x)` — the orthogonal projection is sign-invariant, so
`snr(−x, x)` is the same large positive number, not very negative. -/
theorem snr_self_large_and_sign_invariant {m : ℕ} (x : Fin m → ℚ)
    (h2 : 2 ≤ dot x x) :
    (80 : ℝ) < 10 * Real.logb 10 ((snrLogArg x x 1e-8 : ℚ) : ℝ)
    ∧ snrLogArg (fun i => -x i) x 1e-8 = snrLogArg x x 1e-8
    ∧ (80 : ℝ)
        < 10 * Real.logb 10 ((snrLogArg (fun i => -x i) x 1e-8 : ℚ) : ℝ) := by
  have harg := snrLogArg_self_gt x h2
  have hneg := snrLogArg_neg x x 1e-8
  refine ⟨ConvSTFT.dB_gt_80_of_arg _ harg, hneg, ?_⟩
  rw [hneg]
  exact ConvSTFT.dB_gt_80_of_arg _ harg

/-- witness for C2 at `x = [2]`: the squared norm is `4 ≥ 2` and the
self-SNR reading exceeds 80 dB. -/
theorem snr_self_large_and_sign_invariant_witness :
    2 ≤ dot (fun _ : Fin 1 => (2 : ℚ)) (fun _ : Fin 1 => (2 : ℚ))
    ∧ (80 : ℝ) < 10 * Real.logb 10
        ((snrLogArg (fun _ : Fin 1 => (2 : ℚ)) (fun _ : Fin 1 => (2 : ℚ))
            1e-8 : ℚ) : ℝ) := by
  have hd : dot (fun _ : Fin 1 => (2 : ℚ)) (fun _ : Fin 1 => (2 : ℚ))
      = 4 := by
    norm_num [dot, Fin.sum_univ_one]
  constructor
  · rw [hd]
    norm_num
  · exact (snr_self_large_and_sign_invariant (fun _ : Fin 1 => (2 : ℚ))
      (by rw [hd]; norm_num)).1

/-- C2 counterexample: at `x = [2]`, the SNR quantity for `(−x, x)` is
strictly positive (in fact above 80 dB), refuting "snr(−x, x) is very
negative". -/
theorem snr_neg_self_positive_cex :
    (0 : ℝ) < 10 * Real.logb 10
      ((snrLogArg (fun _ : Fin 1 => (-2 : ℚ)) (fun _ : Fin 1 => (2 : ℚ))
          1e-8 : ℚ) : ℝ) := by
  have harg : (1e8 : ℚ) < snrLogArg (fun _ : Fin 1 => (-2 : ℚ))
      (fun _ : Fin 1 => (2 : ℚ)) 1e-8 := by
    norm_num [snrLogArg, s_target, e_nosie, dot, Fin.sum_univ_one]
  have hdb := ConvSTFT.dB_gt_80_of_arg _ harg
  linarith

/-- C6: the returned loss of `stft_snr` is exactly the spec's formula:
projection target with `ε = 1e-8`, error as the residual, per-row
`snr = 10·log10(‖target‖²/(‖error‖²+ε)+ε)`, negated mean over the
batch. -/
theorem stft_snr_matches_spec {B m : ℕ}
    (est clean : Fin B → Fin m → ℚ) :
    stft_snr est clean 1e-8 = spec_snr_loss est clean := by
  have h : ∀ b, snrLogArg (est b) (clean b) 1e-8
      = spec_snr_arg (est b) (clean b) := by
    intro b
    have hts : ∀ i, s_target (est b) (clean b) 1e-8 i
        = spec_target (est b) (clean b) i := by
      intro i
      rfl
    have hte : ∀ i, e_nosie (est b) (clean b) 1e-8 i
        = spec_error (est b) (clean b) i := by
      intro i
      unfold e_nosie spec_error
      rw [hts i]
    unfold snrLogArg spec_snr_arg
    congr 1
    congr 1
    · unfold dot
      apply Finset.sum_congr rfl
      intro i _
      rw [hts i]
      ring
    · congr 1
      unfold dot
      apply Finset.sum_congr rfl
      intro i _
      rw [hte i]
      ring
  unfold stft_snr spec_snr_loss
  congr 2
  apply Finset.sum_congr rfl
  intro b _
  rw [h b]

/-- C4 counterexample: with `est = clean = [1]` and `a = 2`, scaling
the estimate changes the value of `stft_snr` — the `ε` floors are not
scale-covariant, so exact invariance fails. -/
theorem stft_snr_scale_dependence_cex :
    stft_snr (fun _ : Fin 1 => fun _ : Fin 1 => (2 : ℚ))
        (fun _ _ => 1) 1e-8
      ≠ stft_snr (fun _ : Fin 1 => fun _ : Fin 1 => (1 : ℚ))
        (fun _ _ => 1) 1e-8 := by
  have ha : snrLogArg (fun _ : Fin 1 => (1 : ℚ)) (fun _ : Fin 1 => (1 : ℚ)) 1e-8
      < snrLogArg (fun _ : Fin 1 => (2 : ℚ)) (fun _ : Fin 1 => (1 : ℚ)) 1e-8 := by
    norm_num [snrLogArg, s_target, e_nosie, dot, Fin.sum_univ_one]
  have hpos : (0 : ℚ)
      < snrLogArg (fun _ : Fin 1 => (1 : ℚ)) (fun _ : Fin 1 => (1 : ℚ)) 1e-8 := by
    norm_num [snrLogArg, s_target, e_nosie, dot, Fin.sum_univ_one]
  have hlt : Real.logb 10
        ((snrLogArg (fun _ : Fin 1 => (1 : ℚ)) (fun _ : Fin 1 => (1 : ℚ)) 1e-8 : ℚ) : ℝ)
      < Real.logb 10
        ((snrLogArg (fun _ : Fin 1 => (2 : ℚ)) (fun _ : Fin 1 => (1 : ℚ)) 1e-8 : ℚ) : ℝ) :=
    Real.logb_lt_logb (by norm_num) (by exact_mod_cast hpos)
      (by exact_mod_cast ha)
  unfold stft_snr
  rw [Fin.sum_univ_one, Fin.sum_univ_one]
  simp only [Nat.cast_one, div_one]
  intro heq
  have heq2 := neg_injective heq
  nlinarith [hlt]

/-- C4 corrected: uniform positive scaling of the estimate leaves
`stft_snr` exactly unchanged when the `eps` parameter is instantiated
at `0` (target and error both scale by `a`, and `a²` cancels in the
ratio); with the default `eps = 1e-8` the invariance is only
approximate. -/
theorem stft_snr_scale_invariant_eps_zero {B m : ℕ} (a : ℚ)
    (est clean : Fin B → Fin m → ℚ) (ha : 0 < a) :
    stft_snr (fun b i => a * est b i) clean 0
      = stft_snr est clean 0 := by
  unfold stft_snr
  congr 2
  apply Finset.sum_congr rfl
  intro b _
  rw [snrLogArg_smul_eps_zero a (est b) (clean b) (ne_of_gt ha)]

/-- witness for C4 at `a = 2`, `est = clean = [1]`. -/
theorem stft_snr_scale_invariant_eps_zero_witness :
    (0 : ℚ) < 2
    ∧ stft_snr (fun _ : Fin 1 => fun _ : Fin 1 => (2 : ℚ))
        (fun _ _ => 1) 0
      = stft_snr (fun _ : Fin 1 => fun _ : Fin 1 => (1 : ℚ))
        (fun _ _ => 1) 0 := by
  constructor
  · norm_num
  · have h := stft_snr_scale_invariant_eps_zero 2
      (fun _ : Fin 1 => fun _ : Fin 1 => (1 : ℚ)) (fun _ _ => 1)
      (by norm_num)
    simpa using h

/-- C9: the per-frame weight mask of `APC_SNR.forward` assigns `1` to
frames whose VAD frame-sum is positive and `1/10` otherwise, and every
frame at or beyond the computed `frame_num = 1 + (L - winlen) // hop`
receives weight exactly `0`. -/
theorem vad_mask_characterization (winlen hop L : ℕ) (vad : ℕ → ℚ)
    (_hhop : 0 < hop) (_hL : winlen ≤ L) :
    ∀ t, vad_mask winlen hop (vad_frame_num winlen hop L) vad t
      = if t < 1 + (L - winlen) / hop
        then (if 0 < ∑ j in Finset.range winlen, vad (t * hop + j)
              then 1 else 1 / 10)
        else 0 := by
  intro t
  rfl

/-- witness for C9: `winlen=2, hop=1, L=4`, VAD active on the first
two samples; frame 0 is active and gets weight `1`, frame 3 is past
`frame_num = 3` and gets weight `0`. -/
theorem vad_mask_characterization_witness :
    0 < 1 ∧ 2 ≤ 4
    ∧ vad_mask 2 1 (vad_frame_num 2 1 4) vadEx 0 = 1
    ∧ vad_mask 2 1 (vad_frame_num 2 1 4) vadEx 3 = 0 := by
  refine ⟨by norm_num, by norm_num, ?_, ?_⟩
  · rw [vad_mask_characterization 2 1 4 vadEx (by norm_num) (by norm_num) 0]
    rw [if_pos (by norm_num), Finset.sum_range_succ, Finset.sum_range_succ,
      Finset.sum_range_zero]
    norm_num [vadEx]
  · rw [vad_mask_characterization 2 1 4 vadEx (by norm_num) (by norm_num) 3]
    norm_num

end APCSNR

namespace ConvSTFT

/-- per-frame contribution of the synthesis overlap-add: with the
forward kernel `K·w` and the inverse kernel `pinv(K)ᵀ·w`, the channel
sum collapses (via `pinv(K)·K = I`, the identity the source comment on
line 80 asserts) to the squared window times the padded sample. -/
lemma frame_contrib (st : STFTBuffers) (K P : ℕ → ℕ → ℚ) (xp : ℕ → ℚ)
    (hW : ∀ c j, st.weight c j = K c j * st.window j)
    (hIW : ∀ c j, st.inv_weight c j = P j c * st.window j)
    (hPK : ∀ j j', j < st.nframe → j' < st.nframe →
      (∑ c in Finset.range st.nch, P j c * K c j')
        = if j = j' then 1 else 0)
    (f tau : ℕ) (htau : tau < st.nframe) :
    (∑ c in Finset.range st.nch,
      (∑ j in Finset.range st.nframe,
          st.weight c j * xp (st.nhop.toNat * f + j))
        * st.inv_weight c tau)
      = st.window tau ^ 2 * xp (st.nhop.toNat * f + tau) := by
  have step1 : ∀ c,
      (∑ j in Finset.range st.nframe,
          st.weight c j * xp (st.nhop.toNat * f + j))
        * st.inv_weight c tau
      = ∑ j in Finset.range st.nframe,
          (P tau c * K c j)
            * (st.window tau * st.window j
                * xp (st.nhop.toNat * f + j)) := by
    intro c
    rw [hIW, Finset.sum_mul]
    apply Finset.sum_congr rfl
    intro j _
    rw [hW]
    ring
  rw [Finset.sum_congr rfl fun c _ => step1 c]
  rw [Finset.sum_comm]
  have step2 : ∀ j, j ∈ Finset.range st.nframe →
      (∑ c in Finset.range st.nch,
        (P tau c * K c j)
          * (st.window tau * st.window j
              * xp (st.nhop.toNat * f + j)))
      = (if tau = j then 1 else 0)
          * (st.window tau * st.window j
              * xp (st.nhop.toNat * f + j)) := by
    intro j hj
    rw [← Finset.sum_mul]
    rw [hPK tau j htau (Finset.mem_range.mp hj)]
  rw [Finset.sum_congr rfl step2]
  simp only [ite_mul, one_mul, zero_mul]
  rw [Finset.sum_ite_eq]
  rw [if_pos (Finset.mem_range.mpr htau)]
  ring

/-- the overlap-added synthesis output on the analysis frames of a
padded signal is pointwise the window-power curve times that signal:
each covered position receives `window² · xp` from every frame whose
support contains it. -/
lemma ola_spec_eq (st : STFTBuffers) (K P : ℕ → ℕ → ℚ) (xp : ℕ → ℚ)
    (hW : ∀ c j, st.weight c j = K c j * st.window j)
    (hIW : ∀ c j, st.inv_weight c j = P j c * st.window j)
    (hPK : ∀ j j', j < st.nframe → j' < st.nframe →
      (∑ c in Finset.range st.nch, P j c * K c j')
        = if j = j' then 1 else 0)
    (T t : ℕ) :
    olaOutputs st T
      (fun f c => ∑ j in Finset.range st.nframe,
        st.weight c j * xp (st.nhop.toNat * f + j)) t
      = coff st T t * xp t := by
  simp only [olaOutputs, coff, convT1d]
  rw [Finset.sum_mul]
  apply Finset.sum_congr rfl
  intro f _
  rw [Finset.sum_mul]
  by_cases hc : st.nhop.toNat * f ≤ t ∧ t - st.nhop.toNat * f < st.nframe
  · simp only [if_pos hc]
    have hL1 := frame_contrib st K P xp hW hIW hPK f
      (t - st.nhop.toNat * f) hc.2
    rw [hL1]
    rw [Nat.add_sub_cancel' hc.1]
    simp only [mul_ite, mul_one, mul_zero, ite_mul, zero_mul]
    rw [Finset.sum_ite_eq]
    rw [if_pos (Finset.mem_range.mpr hc.2)]
  · simp only [if_neg hc, zero_mul, Finset.sum_const_zero]

/-- shifting by the pad lands inside the original samples: the padded
signal at `t + pad` is `x t` for `t < L`. -/
lemma padded_shift (pad L : ℕ) (x : ℕ → ℚ) (t : ℕ) (ht : t < L) :
    padded pad L x (t + pad) = x t := by
  unfold padded
  rw [if_neg (by omega), if_pos (by omega)]
  congr 1
  omega

/-- the trimmed synthesis output is no longer than the input: the conv
frame count caps the overlap-add extent at the padded length. -/
lemma fwdOutLen_le (st : STFTBuffers) (L : ℕ)
    (_h2p : 2 * st.pad ≤ st.nframe)
    (hLp : st.nframe ≤ L + 2 * st.pad) :
    fwdOutLen st L ≤ L := by
  unfold fwdOutLen invOutLen invFullLen fwdFrames numFrames
  simp only [Nat.add_sub_cancel]
  have hdiv := Nat.div_mul_le_self (L + 2 * st.pad - st.nframe)
    st.nhop.toNat
  generalize hM : (L + 2 * st.pad - st.nframe) / st.nhop.toNat
      * st.nhop.toNat = M at hdiv ⊢
  omega

/-- C1: composing analysis and synthesis (`STFT.forward`, i.e.
`inverse(transform(x))`) reproduces the input within `1e-4` per sample
after stripping the `frame_length/2` padding from each end.  The
window is arbitrary (covering the matched sqrt-family pair applied on
both sides, as built by `__init__` from one `win` argument), the
kernels are the windowed Fourier matrix and the windowed
pseudo-inverse (`hW`, `hIW`), and `hPK` is the left-inverse property
of the pseudo-inverse asserted by the source (line 80).  `hcoff` asks
the overlap-added window power to cover the retained samples (the
constant-overlap-add condition the sqrt-family window is chosen for),
and `hx` bounds the samples as float audio does. -/
theorem stft_round_trip (st : STFTBuffers) (K P : ℕ → ℕ → ℚ) (L : ℕ)
    (x : ℕ → ℚ)
    (hpad : st.pad = st.nframe / 2)
    (hhop : 0 < st.nhop)
    (hW : ∀ c j, st.weight c j = K c j * st.window j)
    (hIW : ∀ c j, st.inv_weight c j = P j c * st.window j)
    (hPK : ∀ j j', j < st.nframe → j' < st.nframe →
      (∑ c in Finset.range st.nch, P j c * K c j')
        = if j = j' then 1 else 0)
    (hL : st.nframe ≤ L)
    (hx : ∀ t, |x t| ≤ 10000)
    (hcoff : ∀ t, t < fwdOutLen st L →
      1 ≤ coff st (fwdFrames st L) (t + st.pad)) :
    ∃ out, STFT_forward st L x = Except.ok out
      ∧ ∀ t, t < fwdOutLen st L → |out t - x t| ≤ 1e-4 := by
  have h2p : 2 * st.pad ≤ st.nframe := by
    rw [hpad]
    omega
  have hLp : st.nframe ≤ L + 2 * st.pad :=
    le_trans hL (Nat.le_add_right _ _)
  refine ⟨STFT_inverse st (fwdFrames st L)
    (fun f c => ∑ j in Finset.range st.nframe,
      st.weight c j * padded st.pad L x (st.nhop.toNat * f + j)),
    ?_, ?_⟩
  · unfold STFT_forward STFT_transform
    rw [if_neg (not_le.mpr hhop), if_neg (not_lt.mpr hLp)]
    rfl
  · intro t ht
    have htL : t < L := lt_of_lt_of_le ht (fwdOutLen_le st L h2p hLp)
    have hx1 : padded st.pad L x (t + st.pad) = x t :=
      padded_shift _ _ _ _ htL
    have hinv : STFT_inverse st (fwdFrames st L)
        (fun f c => ∑ j in Finset.range st.nframe,
          st.weight c j * padded st.pad L x (st.nhop.toNat * f + j)) t
        = olaOutputs st (fwdFrames st L)
            (fun f c => ∑ j in Finset.range st.nframe,
              st.weight c j
                * padded st.pad L x (st.nhop.toNat * f + j))
            (t + st.pad)
          / (coff st (fwdFrames st L) (t + st.pad) + invEps) := rfl
    rw [hinv,
      ola_spec_eq st K P (padded st.pad L x) hW hIW hPK
        (fwdFrames st L) (t + st.pad),
      hx1]
    have hc := hcoff t ht
    have hEps : (0 : ℚ) < invEps := by norm_num [invEps]
    have hcpos : (0 : ℚ)
        < coff st (fwdFrames st L) (t + st.pad) + invEps := by
      linarith
    have heq : coff st (fwdFrames st L) (t + st.pad) * x t
          / (coff st (fwdFrames st L) (t + st.pad) + invEps) - x t
        = -(x t * invEps
            / (coff st (fwdFrames st L) (t + st.pad) + invEps)) := by
      field_simp
      ring
    rw [heq, abs_neg, abs_div, abs_of_pos hcpos, abs_mul]
    have hiE : |invEps| = invEps := by norm_num [invEps]
    rw [hiE, div_le_iff₀ hcpos]
    have hb1 : |x t| * invEps ≤ 10000 * invEps :=
      mul_le_mul_of_nonneg_right (hx t) (le_of_lt hEps)
    have hb2 : (10000 : ℚ) * invEps = 1e-4 := by
      norm_num [invEps]
    have hb3 : (1e-4 : ℚ) * 1
        ≤ 1e-4 * (coff st (fwdFrames st L) (t + st.pad) + invEps) := by
      apply mul_le_mul_of_nonneg_left _ (by norm_num)
      linarith
    calc |x t| * invEps ≤ 10000 * invEps := hb1
      _ = 1e-4 := hb2
      _ = 1e-4 * 1 := (mul_one _).symm
      _ ≤ 1e-4 * (coff st (fwdFrames st L) (t + st.pad) + invEps) := hb3

/-- witness for C1: the concrete engine `exSt` (frame 2, hop 1,
nfft 2, centered) with the sqrt-Hann window pair and the exact
pseudo-inverse, on the length-2 constant signal; the forward pass
succeeds and reproduces both retained samples within `1e-4`. -/
theorem stft_round_trip_witness :
    ∃ out, STFT_forward exSt 2 exX = Except.ok out
      ∧ ∀ t, t < fwdOutLen exSt 2 → |out t - exX t| ≤ 1e-4 := by
  apply stft_round_trip exSt exK exP 2 exX
  · rfl
  · decide
  · intro c j
    rfl
  · intro c j
    rfl
  · intro j j' hj hj'
    have hj2 : j < 2 := hj
    have hj2' : j' < 2 := hj'
    interval_cases j <;> interval_cases j' <;>
      norm_num [STFTBuffers.nch, exSt, exP, exK, Finset.sum_range_succ]
  · decide
  · intro t
    norm_num [exX]
  · intro t ht
    have h2 : fwdOutLen exSt 2 = 2 := rfl
    rw [h2] at ht
    interval_cases t <;>
      norm_num [coff, convT1d, exSt, exWin, fwdFrames, numFrames,
        Finset.sum_range_succ]

end ConvSTFT
